import Mathlib

/-!
Shallow embedding of `render.py` (tabletop-roster → report pipeline).

Python dicts are modelled as insertion-ordered association lists (`PyDict`);
assigning an existing key updates it in place, a new key is appended, which
matches CPython dict semantics.  Fallible Python operations (`d[k]`, `l[0]`,
`sorted` over incomparable keys) are modelled in `Except Unit`.
-/

/-- Emptiness of a list is decidable without decidable equality on the
elements (used to state lookup results on merged dictionaries). -/
instance instDecidableListEqNil {γ : Type} (l : List γ) : Decidable (l = []) :=
  match l with
  | [] => isTrue rfl
  | _ :: _ => isFalse (by simp)

/-- Python dict with string keys: insertion-ordered association list. -/
abbrev PyDict (β : Type) := List (String × β)

/-- `d.get(k)` / `d[k]` lookup: first (unique, for genuine dicts) binding. -/
def dictGet {β : Type} (d : PyDict β) (k : String) : Option β :=
  (d.find? (fun p => p.1 = k)).map (fun p => p.2)

/-- `d[k] = v`: update in place when the key is present, append otherwise. -/
def dictInsert {β : Type} : PyDict β → String → β → PyDict β
  | [], k, v => [(k, v)]
  | p :: d, k, v => if p.1 = k then (k, v) :: d else p :: dictInsert d k v

/-- The keys of a genuine Python dict are pairwise distinct. -/
def NodupKeys {β : Type} (d : PyDict β) : Prop := (d.map Prod.fst).Nodup

-- ### Data model (shapes actually accessed by `render.py`)

/-- A category tag: `{'name': ..., 'primary': ...}` (`primary` defaults to false). -/
structure Category where
  name : String
  primary : Bool
deriving DecidableEq

/-- One cost entry `{'name': ..., 'value': ...}`. -/
structure CostEntry where
  name : String
  value : Int
deriving DecidableEq

/-- A rule `{'name': ..., ...}`; `name` may be absent (`x.get('name')`),
`text` stands for the remaining payload carried through unchanged. -/
structure RuleEntry where
  name : Option String
  text : String
deriving DecidableEq

/-- One profile characteristic `{'name': ..., '$text': ...}` (text may be absent). -/
structure ProfileCharacteristic where
  name : String
  text : Option String
deriving DecidableEq

/-- Raw profile data `{'id', 'name', 'characteristics'}`. -/
structure ProfileData where
  id : String
  name : String
  characteristics : List ProfileCharacteristic
deriving DecidableEq

/-- A selection node of the roster tree.  Fields the code reads with
`.get(key, default)` are plain lists / options; `costs` is `Option` because the
code distinguishes presence (`'costs' in s`) from emptiness. -/
inductive Selection : Type where
  | mk (name : String) (customName : Option String) (categories : List Category)
       (costs : Option (List CostEntry)) (rules : List RuleEntry)
       (profiles : List ProfileData) (selections : List Selection)
       (number : Option Int) : Selection

def Selection.name : Selection → String
  | .mk n _ _ _ _ _ _ _ => n

def Selection.customName : Selection → Option String
  | .mk _ c _ _ _ _ _ _ => c

def Selection.categories : Selection → List Category
  | .mk _ _ c _ _ _ _ _ => c

def Selection.costs : Selection → Option (List CostEntry)
  | .mk _ _ _ c _ _ _ _ => c

def Selection.rules : Selection → List RuleEntry
  | .mk _ _ _ _ r _ _ _ => r

def Selection.profiles : Selection → List ProfileData
  | .mk _ _ _ _ _ p _ _ => p

def Selection.selections : Selection → List Selection
  | .mk _ _ _ _ _ _ s _ => s

def Selection.number : Selection → Option Int
  | .mk _ _ _ _ _ _ _ n => n

/-- A force: `catalogueName`, `categories`, `selections`. -/
structure Force where
  catalogueName : String
  categories : List Category
  selections : List Selection

/-- The roster document (the value of the top-level `'roster'` key). -/
structure Roster where
  name : String
  costs : List CostEntry
  forces : List Force

-- ### Extraction (`get_selections`, `get_categories`, `primary_category`)

/-- `get_selections`: concatenate every force's selections, in force order. -/
def get_selections (data : Roster) : List Selection :=
  data.forces.foldl (fun ret f => ret ++ f.selections) []

/-- `get_categories`: concatenate every force's categories, in force order. -/
def get_categories (data : Roster) : List Category :=
  data.forces.foldl (fun ret f => ret ++ f.categories) []

/-- `primary_category`: name of the first category whose `primary` flag is
true; `None` when no category is marked primary. -/
def primary_category (selection : Selection) : Option String :=
  ((selection.categories).find? (fun c => c.primary)).map (fun c => c.name)

-- ### Grouping and Python `sorted` over possibly-absent keys

/-- `ret.get(k)` on the ordered group dictionary built by `group_by`. -/
def groupLookup {α : Type} (g : List (Option String × List α))
    (k : Option String) : Option (List α) :=
  (g.find? (fun p => p.1 = k)).map (fun p => p.2)

/-- One `group_by` step: append `x` to its key's group, creating the group
at the end when the key is new (`if key not in ret: ret[key] = []` followed
by `ret[key].append(x)`). -/
def groupInsert {α : Type} : List (Option String × List α) → Option String → α →
    List (Option String × List α)
  | [], k, x => [(k, [x])]
  | p :: g, k, x =>
    if p.1 = k then (p.1, p.2 ++ [x]) :: g else p :: groupInsert g k x

/-- `group_by`: ordered mapping key ↦ items with that key, keys in
first-encounter order, items in original order. -/
def group_by {α : Type} (xs : List α) (key : α → Option String) :
    List (Option String × List α) :=
  xs.foldl (fun ret x => groupInsert ret (key x) x) []

/-- Python `<` on strings: lexicographic by code point. -/
def pyStrLt : List Char → List Char → Bool
  | [], [] => false
  | [], _ :: _ => true
  | _ :: _, [] => false
  | a :: as, b :: bs => if a = b then pyStrLt as bs else decide (a < b)

/-- Python `<` on group keys: strings compare lexicographically by code
point, any comparison involving `None` raises `TypeError`. -/
def pyLt : Option String → Option String → Except Unit Bool
  | some a, some b => .ok (pyStrLt a.data b.data)
  | _, _ => .error ()

/-- One insertion step of a stable insertion sort using `pyLt`. -/
def insertF (a : Option String) : List (Option String) →
    Except Unit (List (Option String))
  | [] => .ok [a]
  | b :: bs =>
    match pyLt a b with
    | .error e => .error e
    | .ok true => .ok (a :: b :: bs)
    | .ok false =>
      match insertF a bs with
      | .error e => .error e
      | .ok l => .ok (b :: l)

/-- Python `sorted` on the group keys (raises on `None`-vs-string comparison). -/
def pySorted : List (Option String) → Except Unit (List (Option String))
  | [] => .ok []
  | x :: xs =>
    match pySorted xs with
    | .error e => .error e
    | .ok l => insertF x l

/-- The loop of `uniq_by`: `vals = groups.get(k); ret.append(vals[0])`
(lookup or index failure raises). -/
def pick_firsts {α : Type} (groups : List (Option String × List α)) :
    List (Option String) → List α → Except Unit (List α)
  | [], ret => .ok ret
  | k :: ks, ret =>
    match groupLookup groups k with
    | some (v :: _) => pick_firsts groups ks (ret ++ [v])
    | _ => .error ()

/-- `uniq_by`: group, sort keys, take the first element of each group. -/
def uniq_by {α : Type} (xs : List α) (key : α → Option String) :
    Except Unit (List α) :=
  let groups := group_by xs key
  match pySorted (groups.map Prod.fst) with
  | .error e => .error e
  | .ok ks => pick_firsts groups ks []

/-- The loop of `dedupe_by`: like `pick_firsts` but the representative gets
the occurrence count attached (`entry['count'] = count`). -/
def dedupe_picks {α : Type} (groups : List (Option String × List α)) :
    List (Option String) → List (α × Nat) → Except Unit (List (α × Nat))
  | [], ret => .ok ret
  | k :: ks, ret =>
    match groupLookup groups k with
    | some (v :: vs) => dedupe_picks groups ks (ret ++ [(v, (v :: vs).length)])
    | _ => .error ()

/-- `dedupe_by`: `uniq_by` plus an occurrence count on each representative. -/
def dedupe_by {α : Type} (xs : List α) (key : α → Option String) :
    Except Unit (List (α × Nat)) :=
  let groups := group_by xs key
  match pySorted (groups.map Prod.fst) with
  | .error e => .error e
  | .ok ks => dedupe_picks groups ks []

-- ### Number formatting (`f"{n:,}"` and `str(n)`)

/-- Insert a comma after every three characters of a reversed digit list. -/
def groupThrees : List Char → List Char
  | a :: b :: c :: d :: rest => a :: b :: c :: ',' :: groupThrees (d :: rest)
  | l => l

/-- Decimal digits of a natural number grouped by threes from the right. -/
def commaNat (n : Nat) : String :=
  String.mk ((groupThrees (Nat.repr n).data.reverse).reverse)

/-- Python `f"{n:,}"` for an integer. -/
def pyFormatComma : Int → String
  | .ofNat m => commaNat m
  | .negSucc m => "-" ++ commaNat (m + 1)

/-- Python `str(n)` for an integer. -/
def intStr : Int → String
  | .ofNat m => Nat.repr m
  | .negSucc m => "-" ++ Nat.repr (m + 1)

-- ### Characteristic and cost dictionaries

/-- The text stored for one characteristic: `c.get('$text')`, replaced by
`'0'` (for `SPP`/`Cost`) or `''` when falsy (absent or empty). -/
def charText (c : ProfileCharacteristic) : String :=
  let dflt := if c.name = "SPP" ∨ c.name = "Cost" then "0" else ""
  match c.text with
  | some t => if t = "" then dflt else t
  | none => dflt

/-- `characteristics_dict`: name ↦ text with the default-filling rule. -/
def characteristics_dict (characteristics : List ProfileCharacteristic) :
    PyDict String :=
  characteristics.foldl (fun ret c => dictInsert ret c.name (charText c)) []

/-- `cost_dict`: `{c['name']: c['value'] for c in costs}` (last write wins). -/
def cost_dict (costs : List CostEntry) : PyDict Int :=
  costs.foldl (fun ret c => dictInsert ret c.name c.value) []

/-- The body of the `merge_costs` loop: `merged[name] += value` when the
name is present, `merged[name] = value` otherwise. -/
def merge_pair (merged : PyDict Int) (p : String × Int) : PyDict Int :=
  match dictGet merged p.1 with
  | some old => dictInsert merged p.1 (old + p.2)
  | none => dictInsert merged p.1 p.2

/-- `merge_costs`: additive merge of a list of cost dictionaries. -/
def merge_costs (costs_list : List (PyDict Int)) : PyDict Int :=
  costs_list.foldl (fun merged costs => costs.foldl merge_pair merged) []

-- ### Profiles and players

/-- Parsed profile. -/
structure Profile where
  id : String
  name : String
  characteristics : PyDict String
deriving DecidableEq

/-- `Profile.parse`. -/
def Profile.parse (data : ProfileData) : Profile :=
  ⟨data.id, data.name, characteristics_dict data.characteristics⟩

/-- Alias for `primary_category` (the global function is shadowed by the
`Player` field projection inside the `Player` namespace). -/
def primaryCategoryOfSelection : Selection → Option String := primary_category

/-- Aggregated player record. -/
structure Player where
  name : String
  number : Nat
  profiles : List Profile
  costs : PyDict Int
  primary_category : Option String
  category_names : List String
  custom_name : Option String
  selections : List Selection
  rules : List RuleEntry
  characteristics : PyDict String

/-- `Player.parse`: single-pass aggregation of one player selection.
Fallible because `uniq_by` on the collected rules can raise (`sorted` over
mixed absent/string rule names). -/
def Player.parse (data : Selection) (idx : Nat) : Except Unit Player :=
  let profiles := data.profiles.map Profile.parse
  let primary_profile := profiles.head?
  let costs := cost_dict (data.costs.getD [])
  let primary_cat := primaryCategoryOfSelection data
  let category_names := data.categories.map Category.name
  let selections := data.selections
  let all_costs := costs :: selections.filterMap (fun s => (s.costs).map cost_dict)
  let all_rules_raw := data.rules ++ (selections.map Selection.rules).flatten
  let total_costs := merge_costs all_costs
  match uniq_by all_rules_raw RuleEntry.name with
  | .error e => .error e
  | .ok all_rules =>
    let characteristics :=
      match primary_profile with
      | some pr => pr.characteristics
      | none => []
    let characteristics :=
      match dictGet total_costs "TV" with
      | some tv => dictInsert characteristics "Cost" (pyFormatComma tv)
      | none => characteristics
    let characteristics :=
      match dictGet total_costs "SPP" with
      | some v => dictInsert characteristics "SPP" (intStr v)
      | none => characteristics
    let characteristics := dictInsert characteristics "Player" data.name
    .ok ⟨data.name, idx + 1, profiles, total_costs, primary_cat, category_names,
         data.customName, selections, all_rules, characteristics⟩

-- ### Roster-level lists

/-- `get_rules`: rules of every top-level selection, deduplicated by name. -/
def get_rules (data : Roster) : Except Unit (List RuleEntry) :=
  uniq_by (((get_selections data).map Selection.rules).flatten) RuleEntry.name

/-- Stable sort of parsed profiles by name (`profiles.sort(key=...name)`). -/
def sortProfilesByName (ps : List Profile) : List Profile :=
  ps.insertionSort (fun a b => a.name ≤ b.name)

/-- `get_profiles`: all profiles roster-wide, deduplicated by id (first
occurrence wins), parsed, sorted by profile name. -/
def get_profiles (data : Roster) : Except Unit (List Profile) :=
  let all_profiles := ((get_selections data).map Selection.profiles).flatten
  match dedupe_by all_profiles (fun p => some p.id) with
  | .error e => .error e
  | .ok ps => .ok (sortProfilesByName (ps.map (fun p => Profile.parse p.1)))

/-- The `'Player'` bucket of the classified selections. -/
def playerBucket (data : Roster) : List Selection :=
  (groupLookup (group_by (get_selections data) primary_category)
    (some "Player")).getD []

/-- The enumerated comprehension of `get_players`:
`[Player.parse(p, idx=idx) for idx, p in enumerate(players_data)]`. -/
def get_players_aux : Nat → List Selection → Except Unit (List Player)
  | _, [] => .ok []
  | idx, s :: rest =>
    match Player.parse s idx with
    | .error e => .error e
    | .ok p =>
      match get_players_aux (idx + 1) rest with
      | .error e => .error e
      | .ok ps => .ok (p :: ps)

/-- `get_players`: classify, take the `'Player'` bucket, parse with indices. -/
def get_players (data : Roster) : Except Unit (List Player) :=
  get_players_aux 0 (playerBucket data)

-- ### Team management options

/-- Team-management option: name plus raw selections. -/
structure TeamOption where
  name : String
  selections : List Selection

/-- `TeamOption.quantity`: sum of the selections' `number` fields (absent
defaults to 1); 1 when there are no selections at all. -/
def TeamOption.quantity (o : TeamOption) : Int :=
  match o.selections with
  | [] => 1
  | l => (l.map (fun s => (s.number).getD 1)).sum

/-- `TeamOption.parse`. -/
def TeamOption.parse (data : Selection) : TeamOption :=
  ⟨data.name, data.selections⟩

/-- `special_rules.sort(key=lambda x: x['name'])`: raises when a rule has no
name, otherwise a stable sort by name. -/
def sortRulesByName (rs : List RuleEntry) : Except Unit (List RuleEntry) :=
  if rs.all (fun r => r.name.isSome) then
    .ok (rs.insertionSort (fun a b => a.name.getD "" ≤ b.name.getD ""))
  else
    .error ()

/-- Stable sort of team options by name (`other_options.sort(...)`). -/
def sortOptionsByName (os : List TeamOption) : List TeamOption :=
  os.insertionSort (fun a b => a.name ≤ b.name)

/-- The `'Team Management'` bucket of the classified selections. -/
def teamManagementBucket (data : Roster) : List Selection :=
  (groupLookup (group_by (get_selections data) primary_category)
    (some "Team Management")).getD []

/-- Loop state of `team_management_options`: league, special rules, others. -/
abbrev TMAcc := Option String × Option (List RuleEntry) × List TeamOption

/-- One iteration of the `team_management_options` loop. -/
def tm_step (acc : TMAcc) (o : Selection) : Except Unit TMAcc :=
  if o.name = "Team League" then
    match o.selections with
    | [] => .error ()
    | s :: _ => .ok (some s.name, acc.2.1, acc.2.2)
  else if o.name = "Special Rules" then
    match sortRulesByName ((o.selections.map Selection.rules).flatten) with
    | .error e => .error e
    | .ok srs => .ok (acc.1, some srs, acc.2.2)
  else
    .ok (acc.1, acc.2.1, acc.2.2 ++ [TeamOption.parse o])

/-- The `for o in options` loop of `team_management_options`. -/
def tmLoop : List Selection → TMAcc → Except Unit TMAcc
  | [], acc => .ok acc
  | o :: os, acc =>
    match tm_step acc o with
    | .error e => .error e
    | .ok acc' => tmLoop os acc'

/-- `team_management_options`: league / special rules / other options. -/
def team_management_options (data : Roster) : Except Unit TMAcc :=
  match tmLoop (teamManagementBucket data) (none, none, []) with
  | .error e => .error e
  | .ok acc => .ok (acc.1, acc.2.1, sortOptionsByName acc.2.2)

-- ### The full pipeline (`render_team` up to the template call)

/-- The context handed to the template by `render_team` (the template
application itself is presentation-only and out of scope). -/
structure TeamContext where
  name : String
  team_type : String
  tv : String
  league : Option String
  special_rules : Option (List RuleEntry)
  rules : List RuleEntry
  players : List Player
  profiles : List Profile
  options : List TeamOption
  include_css : Bool

/-- `render_team`: assemble the template context, in source statement order
(first failure aborts the run). -/
def render_team_context (data : Roster) (include_css : Bool) :
    Except Unit TeamContext :=
  match get_rules data with
  | .error e => .error e
  | .ok rules =>
    match get_players data with
    | .error e => .error e
    | .ok players =>
      match get_profiles data with
      | .error e => .error e
      | .ok profiles =>
        let name := data.name
        match data.costs with
        | [] => .error ()
        | c :: _ =>
          let tv := pyFormatComma c.value
          match data.forces with
          | [] => .error ()
          | f :: _ =>
            let team_type := f.catalogueName
            match team_management_options data with
            | .error e => .error e
            | .ok (league, special_rules, options) =>
              .ok ⟨name, team_type, tv, league, special_rules, rules,
                   players, profiles, options, include_css⟩

-- ### Statement vocabulary

/-- The cost dictionaries a player merges: its own `costs` entry (defaulted
to empty) followed by the cost dictionary of every direct sub-selection that
has a `costs` entry, in order (the `all_costs` list of `Player.parse`). -/
def playerCostDicts (data : Selection) : List (PyDict Int) :=
  cost_dict (data.costs.getD []) ::
    data.selections.filterMap (fun s => (s.costs).map cost_dict)

/-- The raw rule list a player deduplicates: its own rules followed by every
direct sub-selection's rules (the `all_rules` list of `Player.parse`). -/
def playerRawRules (data : Selection) : List RuleEntry :=
  data.rules ++ (data.selections.map Selection.rules).flatten

/-- The characteristics mapping `Player.parse` produces: the primary
profile's characteristics (empty when there is no profile) overlaid with the
formatted `Cost`, the plain `SPP` and the player name. -/
def playerCharsSpec (data : Selection) : PyDict String :=
  let total_costs := merge_costs (playerCostDicts data)
  let base :=
    match (data.profiles.map Profile.parse).head? with
    | some pr => pr.characteristics
    | none => []
  let c1 :=
    match dictGet total_costs "TV" with
    | some tv => dictInsert base "Cost" (pyFormatComma tv)
    | none => base
  let c2 :=
    match dictGet total_costs "SPP" with
    | some v => dictInsert c1 "SPP" (intStr v)
    | none => c1
  dictInsert c2 "Player" data.name

/-- The selections of the Team Management bucket named exactly
`"Team League"`, in bucket order. -/
def teamLeagueSels (data : Roster) : List Selection :=
  (teamManagementBucket data).filter (fun o => o.name = "Team League")

/-- Strict ascending order on group keys, as produced by a successful Python
sort: both keys are strings and the first is smaller lexicographically by
code point. -/
def keyLt (a b : Option String) : Prop :=
  ∃ x y, a = some x ∧ b = some y ∧ pyStrLt x.data y.data = true

/-- Boolean success test for embedded fallible operations. -/
def exIsOk {α : Type} : Except Unit α → Bool
  | .ok _ => true
  | .error _ => false


-- ### Concrete example data used by witnesses

/-- A sub-selection carrying extra costs. -/
def wExtraSel : Selection :=
  .mk "Extra" none [] (some [⟨"TV", 5⟩, ⟨"SPP", 3⟩]) [] [] [] none

/-- A small player selection with one costed sub-selection. -/
def wGrakSel : Selection :=
  .mk "Grak" none [⟨"Player", true⟩] (some [⟨"TV", 90⟩]) [] [] [wExtraSel] none

/-- The aggregation of `wGrakSel`. -/
def wGrakPlayer : Player :=
  ⟨"Grak", 1, [], [("TV", 95), ("SPP", 3)], some "Player", ["Player"], none,
    [wExtraSel], [], [("Cost", "95"), ("SPP", "3"), ("Player", "Grak")]⟩

/-- Example rules for exercising `uniq_by`. -/
def wRuleB : RuleEntry := ⟨some "b", "tb"⟩

/-- Example rule with the smallest name. -/
def wRuleA : RuleEntry := ⟨some "a", "ta"⟩

/-- A later duplicate of `wRuleB` (same name, different text). -/
def wRuleB2 : RuleEntry := ⟨some "b", "tb2"⟩

/-- A force containing the example player selection. -/
def wForce : Force := ⟨"Team A", [], [wGrakSel]⟩

/-- A small roster used by witnesses. -/
def wRoster : Roster := ⟨"My Team", [⟨"TV", 1000⟩], [wForce]⟩

/-- A player selection with zero profiles. -/
def wNoProfileSel : Selection := .mk "X" none [] none [] [] [] none

/-- The aggregation of `wNoProfileSel`. -/
def wNoProfilePlayer : Player :=
  ⟨"X", 1, [], [], none, [], none, [], [], [("Player", "X")]⟩

/-- A sub-selection naming a league. -/
def wUnderworldSel : Selection :=
  .mk "Underworld Challenge" none [] none [] [] [] none

/-- A Team League selection in the Team Management bucket. -/
def wTeamLeagueSel : Selection :=
  .mk "Team League" none [⟨"Team Management", true⟩] none [] [] [wUnderworldSel] none

/-- A force holding the Team League selection. -/
def wTMForce : Force := ⟨"Team B", [], [wTeamLeagueSel]⟩

/-- A roster whose Team Management bucket has a Team League selection. -/
def wTMRoster : Roster := ⟨"T", [⟨"TV", 0⟩], [wTMForce]⟩

/-- A roster with an empty top-level costs list. -/
def wEmptyCostsRoster : Roster := ⟨"E", [], [wForce]⟩

-- ### PyDict lemmas

theorem dictGet_cons {β : Type} (p : String × β) (d : PyDict β) (k : String) :
    dictGet (p :: d) k = if p.1 = k then some p.2 else dictGet d k := by
  by_cases h : p.1 = k
  · unfold dictGet
    rw [List.find?_cons_of_pos _ (by simpa using h)]
    simp [h]
  · unfold dictGet
    rw [List.find?_cons_of_neg _ (by simpa using h)]
    simp [h]

theorem dictGet_insert {β : Type} (d : PyDict β) (k k' : String) (v : β) :
    dictGet (dictInsert d k v) k' = if k' = k then some v else dictGet d k' := by
  induction d with
  | nil =>
    by_cases h : k' = k <;> simp [dictInsert, dictGet_cons, dictGet, h, eq_comm]
  | cons p d ih =>
    by_cases hp : p.1 = k
    · by_cases h : k' = k
      · simp [dictInsert, hp, dictGet_cons, h]
      · have hpk : p.1 ≠ k' := by
          rw [hp]; exact fun hh => h hh.symm
        have hkk : ¬k = k' := fun hh => h hh.symm
        simp [dictInsert, hp, dictGet_cons, h, hpk, hkk]
    · by_cases hpk : p.1 = k'
      · have h : k' ≠ k := fun hh => hp (hpk.trans hh)
        simp [dictInsert, hp, dictGet_cons, h, hpk]
      · simp [dictInsert, hp, dictGet_cons, hpk, ih]

theorem keys_insert {β : Type} (d : PyDict β) (k : String) (v : β) :
    (dictInsert d k v).map Prod.fst =
      if k ∈ d.map Prod.fst then d.map Prod.fst else d.map Prod.fst ++ [k] := by
  induction d with
  | nil => simp [dictInsert]
  | cons p d ih =>
    by_cases hp : p.1 = k
    · simp [dictInsert, hp]
    · have : ¬k = p.1 := fun hh => hp hh.symm
      by_cases hk : k ∈ d.map Prod.fst <;> simp [dictInsert, hp, this, hk, ih]

theorem nodupKeys_insert {β : Type} {d : PyDict β} (h : NodupKeys d)
    (k : String) (v : β) : NodupKeys (dictInsert d k v) := by
  unfold NodupKeys at h ⊢
  rw [keys_insert]
  by_cases hk : k ∈ d.map Prod.fst
  · simpa [hk] using h
  · simp only [hk, if_false]
    simp [List.nodup_append, h, hk]

theorem nodupKeys_foldl_insert {β γ : Type} (f : γ → String) (g : γ → β)
    (cs : List γ) (m : PyDict β) (h : NodupKeys m) :
    NodupKeys (cs.foldl (fun ret c => dictInsert ret (f c) (g c)) m) := by
  induction cs generalizing m with
  | nil => exact h
  | cons c cs ih => exact ih _ (nodupKeys_insert h _ _)

theorem nodupKeys_cost_dict (cs : List CostEntry) : NodupKeys (cost_dict cs) := by
  have h := nodupKeys_foldl_insert (fun c : CostEntry => c.name)
    (fun c => c.value) cs [] (by simp [NodupKeys])
  exact h

/-- With pairwise-distinct keys, filtering a dict by a key yields exactly the
looked-up binding. -/
theorem filter_key_of_nodupKeys {β : Type} {d : PyDict β} (h : NodupKeys d)
    (k : String) :
    (d.filter (fun p => p.1 = k)).map Prod.snd = (dictGet d k).toList := by
  induction d with
  | nil => simp [dictGet]
  | cons p d ih =>
    have hnd : NodupKeys d := by
      unfold NodupKeys at h ⊢
      exact (List.nodup_cons.mp h).2
    have hmem : p.1 ∉ d.map Prod.fst := (List.nodup_cons.mp h).1
    by_cases hp : p.1 = k
    · have : d.filter (fun q => decide (q.1 = k)) = [] := by
        rw [List.filter_eq_nil_iff]
        intro q hq
        simp only [decide_eq_true_eq]
        intro hqk
        exact hmem (by rw [← hp] at hqk; exact hqk ▸ List.mem_map_of_mem Prod.fst hq)
      simp [dictGet_cons, hp, this]
    · simp [dictGet_cons, hp, ih hnd]

-- ### merge_costs lemmas

theorem dictGet_merge_pair (m : PyDict Int) (p : String × Int) (k : String) :
    dictGet (merge_pair m p) k =
      if k = p.1 then some ((dictGet m p.1).getD 0 + p.2) else dictGet m k := by
  unfold merge_pair
  cases h : dictGet m p.1 <;> simp [dictGet_insert, h]

theorem dictGet_foldl_merge_pair (ps : List (String × Int)) (m : PyDict Int)
    (k : String) :
    dictGet (ps.foldl merge_pair m) k =
      if (ps.filter (fun p => p.1 = k)).map Prod.snd = [] then dictGet m k
      else some ((dictGet m k).getD 0 +
        ((ps.filter (fun p => p.1 = k)).map Prod.snd).sum) := by
  induction ps generalizing m with
  | nil => simp
  | cons p ps ih =>
    rw [List.foldl_cons, ih]
    by_cases hk : p.1 = k
    · subst hk
      rw [dictGet_merge_pair]
      by_cases he : (ps.filter (fun q => q.1 = p.1)).map Prod.snd = [] <;>
        simp [List.filter_cons, he, add_assoc]
    · rw [dictGet_merge_pair]
      have hkp : ¬k = p.1 := fun hh => hk hh.symm
      have hfc : List.filter (fun q => decide (q.1 = k)) (p :: ps) =
          List.filter (fun q => decide (q.1 = k)) ps := by
        rw [List.filter_cons]; simp [hk]
      rw [hfc, if_neg hkp]

/-- The value `merge_costs` assigns to a name is the sum of every occurrence
of that name across every dictionary, and names occurring nowhere are absent. -/
theorem dictGet_merge_costs (l : List (PyDict Int)) (k : String) :
    dictGet (merge_costs l) k =
      if ((l.flatten.filter (fun p => p.1 = k)).map Prod.snd) = [] then none
      else some (((l.flatten.filter (fun p => p.1 = k)).map Prod.snd).sum) := by
  unfold merge_costs
  rw [← List.foldl_flatten, dictGet_foldl_merge_pair]
  simp [dictGet]

/-- For dictionaries with pairwise-distinct keys (every genuine Python
dict), the occurrences of a name across the concatenation are exactly the
per-dictionary lookups. -/
theorem flatten_filter_eq_filterMap {l : List (PyDict Int)}
    (h : ∀ d ∈ l, NodupKeys d) (k : String) :
    (l.flatten.filter (fun p => p.1 = k)).map Prod.snd =
      l.filterMap (fun d => dictGet d k) := by
  induction l with
  | nil => simp
  | cons d l ih =>
    rw [List.flatten_cons, List.filter_append, List.map_append,
      filter_key_of_nodupKeys (h d (by simp)) k,
      ih (fun d hd => h d (by simp [hd]))]
    cases hg : dictGet d k <;> simp [List.filterMap_cons, hg]

-- ### Player.parse extraction

theorem parse_ok_spec (data : Selection) (idx : Nat) (p : Player)
    (h : Player.parse data idx = .ok p) :
    p.name = data.name ∧ p.number = idx + 1 ∧
    p.costs = merge_costs (playerCostDicts data) ∧
    p.characteristics = playerCharsSpec data ∧
    uniq_by (playerRawRules data) RuleEntry.name = .ok p.rules := by
  unfold Player.parse at h
  dsimp only [] at h
  rcases hu : uniq_by (data.rules ++ (data.selections.map Selection.rules).flatten)
      RuleEntry.name with e | rs
  · rw [hu] at h
    cases h
  · rw [hu] at h
    injection h with h'
    subst h'
    refine ⟨rfl, rfl, rfl, rfl, ?_⟩
    simpa [playerRawRules] using hu

theorem nodupKeys_playerCostDicts (data : Selection) :
    ∀ d ∈ playerCostDicts data, NodupKeys d := by
  intro d hd
  unfold playerCostDicts at hd
  rcases List.mem_cons.mp hd with rfl | hd'
  · exact nodupKeys_cost_dict _
  · rcases List.mem_filterMap.mp hd' with ⟨s, _, hs⟩
    rcases Option.map_eq_some'.mp hs with ⟨cs, _, rfl⟩
    exact nodupKeys_cost_dict _

/-- C1: for every player selection, the merged total-cost dictionary built
from the player's own cost dictionary and the cost dictionary of every
direct sub-selection that has a `costs` entry maps each cost name to the sum
of that name's values across every dictionary that contains it, and a name
absent from every dictionary does not appear in the merged result. -/
theorem player_total_costs_additive (data : Selection) (idx : Nat) (p : Player)
    (h : Player.parse data idx = .ok p) (name : String) :
    dictGet p.costs name =
      if (playerCostDicts data).filterMap (fun d => dictGet d name) = [] then none
      else some (((playerCostDicts data).filterMap (fun d => dictGet d name)).sum) := by
  rw [(parse_ok_spec data idx p h).2.2.1, dictGet_merge_costs,
    flatten_filter_eq_filterMap (nodupKeys_playerCostDicts data) name]

theorem player_total_costs_additive_witness :
    Player.parse wGrakSel 0 = .ok wGrakPlayer ∧
    dictGet wGrakPlayer.costs "TV" = some 95 :=
  ⟨rfl, (player_total_costs_additive wGrakSel 0 wGrakPlayer rfl "TV").trans (by rfl)⟩

/-- C8: `merge_costs` is commutative in its input — merging any permutation
of a list of cost dictionaries yields the same merged dictionary (the same
value at every cost name). -/
theorem merge_costs_comm (l1 l2 : List (PyDict Int)) (h : l1.Perm l2)
    (k : String) : dictGet (merge_costs l1) k = dictGet (merge_costs l2) k := by
  rw [dictGet_merge_costs, dictGet_merge_costs]
  have hp : ((l1.flatten.filter (fun p => p.1 = k)).map Prod.snd).Perm
      ((l2.flatten.filter (fun p => p.1 = k)).map Prod.snd) :=
    (h.flatten.filter _).map _
  by_cases he : (l1.flatten.filter (fun p => p.1 = k)).map Prod.snd = []
  · have he2 : (l2.flatten.filter (fun p => p.1 = k)).map Prod.snd = [] := by
      rw [he] at hp
      exact (hp.symm).eq_nil
    rw [if_pos he, if_pos he2]
  · have he2 : ¬(l2.flatten.filter (fun p => p.1 = k)).map Prod.snd = [] := by
      intro hh
      rw [hh] at hp
      exact he hp.eq_nil
    rw [if_neg he, if_neg he2, hp.sum_eq]

theorem merge_costs_comm_witness :
    List.Perm [([(("A" : String), (1 : Int))] : PyDict Int), [("B", 2)]]
      [[("B", 2)], [("A", 1)]] ∧
    dictGet (merge_costs [[("A", 1)], [("B", 2)]]) "A" =
      dictGet (merge_costs [[("B", 2)], [("A", 1)]]) "A" :=
  ⟨List.Perm.swap _ _ _, merge_costs_comm _ _ (List.Perm.swap _ _ _) "A"⟩

-- ### group_by lemmas

theorem groupLookup_cons {α : Type} (p : Option String × List α)
    (g : List (Option String × List α)) (k : Option String) :
    groupLookup (p :: g) k = if p.1 = k then some p.2 else groupLookup g k := by
  by_cases h : p.1 = k
  · unfold groupLookup
    rw [List.find?_cons_of_pos _ (by simpa using h)]
    simp [h]
  · unfold groupLookup
    rw [List.find?_cons_of_neg _ (by simpa using h)]
    simp [h]

theorem groupLookup_groupInsert {α : Type} (g : List (Option String × List α))
    (k k' : Option String) (x : α) :
    groupLookup (groupInsert g k x) k' =
      if k' = k then some ((groupLookup g k).getD [] ++ [x])
      else groupLookup g k' := by
  induction g with
  | nil =>
    by_cases h : k' = k <;>
      simp [groupInsert, groupLookup_cons, groupLookup, h, eq_comm]
  | cons p g ih =>
    by_cases hp : p.1 = k
    · have hgi : groupInsert (p :: g) k x = (p.1, p.2 ++ [x]) :: g := by
        simp [groupInsert, hp]
      have hlk : groupLookup (p :: g) k = some p.2 := by
        rw [groupLookup_cons, if_pos hp]
      by_cases h : k' = k
      · rw [hgi, groupLookup_cons, if_pos (hp.trans h.symm), if_pos h, hlk]
        simp
      · have hpk' : ¬p.1 = k' := fun hh => h (hh.symm.trans hp)
        rw [hgi, groupLookup_cons, if_neg hpk', if_neg h, groupLookup_cons,
          if_neg hpk']
    · have hgi : groupInsert (p :: g) k x = p :: groupInsert g k x := by
        simp [groupInsert, hp]
      have hlk : groupLookup (p :: g) k = groupLookup g k := by
        rw [groupLookup_cons, if_neg hp]
      by_cases hpk' : p.1 = k'
      · have h : ¬k' = k := fun hh => hp (hpk'.trans hh)
        rw [hgi, groupLookup_cons, if_pos hpk', if_neg h, groupLookup_cons,
          if_pos hpk']
      · rw [hgi, groupLookup_cons, if_neg hpk', ih, hlk, groupLookup_cons,
          if_neg hpk']

theorem groupKeys_groupInsert {α : Type} (g : List (Option String × List α))
    (k : Option String) (x : α) :
    (groupInsert g k x).map Prod.fst =
      if k ∈ g.map Prod.fst then g.map Prod.fst else g.map Prod.fst ++ [k] := by
  induction g with
  | nil => simp [groupInsert]
  | cons p g ih =>
    by_cases hp : p.1 = k
    · simp [groupInsert, hp]
    · have : ¬k = p.1 := fun hh => hp hh.symm
      by_cases hk : k ∈ g.map Prod.fst <;> simp [groupInsert, hp, this, hk, ih]

theorem groups_nonempty_groupInsert {α : Type}
    {g : List (Option String × List α)} (hg : ∀ p ∈ g, p.2 ≠ [])
    (k : Option String) (x : α) : ∀ p ∈ groupInsert g k x, p.2 ≠ [] := by
  induction g with
  | nil =>
    intro p hp
    simp [groupInsert] at hp
    simp [hp]
  | cons q g ih =>
    intro p hp
    by_cases hq : q.1 = k
    · simp [groupInsert, hq] at hp
      rcases hp with rfl | hp
      · simp
      · exact hg p (by simp [hp])
    · simp [groupInsert, hq] at hp
      rcases hp with rfl | hp
      · exact hg p (by simp)
      · exact ih (fun r hr => hg r (by simp [hr])) p hp

theorem groupKeys_nodup_groupInsert {α : Type}
    {g : List (Option String × List α)} (hg : (g.map Prod.fst).Nodup)
    (k : Option String) (x : α) : ((groupInsert g k x).map Prod.fst).Nodup := by
  rw [groupKeys_groupInsert]
  by_cases hk : k ∈ g.map Prod.fst
  · simpa [hk] using hg
  · simp only [hk, if_false]
    simp [List.nodup_append, hg, hk]

theorem groupLookup_foldl_groupInsert {α : Type} (xs : List α)
    (key : α → Option String) (acc : List (Option String × List α))
    (hacc : ∀ p ∈ acc, p.2 ≠ []) (k : Option String) :
    groupLookup (xs.foldl (fun ret x => groupInsert ret (key x) x) acc) k =
      if (groupLookup acc k).getD [] ++ xs.filter (fun x => key x = k) = []
      then none
      else some ((groupLookup acc k).getD [] ++ xs.filter (fun x => key x = k)) := by
  induction xs generalizing acc with
  | nil =>
    cases hl : groupLookup acc k with
    | none => simp [hl]
    | some l =>
      have hne : l ≠ [] := by
        unfold groupLookup at hl
        rcases Option.map_eq_some'.mp hl with ⟨p, hp, rfl⟩
        exact hacc p (List.mem_of_find?_eq_some hp)
      simp [hl, hne]
  | cons x xs ih =>
    rw [List.foldl_cons,
      ih (groupInsert acc (key x) x) (groups_nonempty_groupInsert hacc _ _)]
    have hgl : (groupLookup (groupInsert acc (key x) x) k).getD [] =
        if k = key x then (groupLookup acc k).getD [] ++ [x]
        else (groupLookup acc k).getD [] := by
      rw [groupLookup_groupInsert]
      by_cases hk : k = key x
      · rw [if_pos hk, if_pos hk]
        simp [hk]
      · rw [if_neg hk, if_neg hk]
    by_cases hk : k = key x
    · have hfc : List.filter (fun y => decide (key y = k)) (x :: xs) =
          x :: List.filter (fun y => decide (key y = k)) xs := by
        rw [List.filter_cons]
        simp [hk.symm]
      rw [hgl, if_pos hk, hfc, List.append_assoc]
      simp
    · have hk2 : ¬key x = k := fun hh => hk hh.symm
      have hfc : List.filter (fun y => decide (key y = k)) (x :: xs) =
          List.filter (fun y => decide (key y = k)) xs := by
        rw [List.filter_cons]
        simp [hk2]
      rw [hgl, if_neg hk, hfc]

theorem groupLookup_group_by {α : Type} (xs : List α)
    (key : α → Option String) (k : Option String) :
    groupLookup (group_by xs key) k =
      if xs.filter (fun x => key x = k) = [] then none
      else some (xs.filter (fun x => key x = k)) := by
  unfold group_by
  rw [groupLookup_foldl_groupInsert xs key [] (by simp) k]
  simp [groupLookup]

theorem groupKeys_nodup {α : Type} (xs : List α) (key : α → Option String) :
    ((group_by xs key).map Prod.fst).Nodup := by
  unfold group_by
  have : ∀ (acc : List (Option String × List α)), (acc.map Prod.fst).Nodup →
      ((xs.foldl (fun ret x => groupInsert ret (key x) x) acc).map Prod.fst).Nodup := by
    induction xs with
    | nil => intro acc h; exact h
    | cons x xs ih =>
      intro acc h
      exact ih _ (groupKeys_nodup_groupInsert h _ _)
  exact this [] (by simp)

theorem groups_nonempty {α : Type} (xs : List α) (key : α → Option String) :
    ∀ p ∈ group_by xs key, p.2 ≠ [] := by
  unfold group_by
  have : ∀ (acc : List (Option String × List α)), (∀ p ∈ acc, p.2 ≠ []) →
      ∀ p ∈ xs.foldl (fun ret x => groupInsert ret (key x) x) acc, p.2 ≠ [] := by
    induction xs with
    | nil => intro acc h; exact h
    | cons x xs ih =>
      intro acc h
      exact ih _ (groups_nonempty_groupInsert h _ _)
  exact this [] (by simp)

theorem groupLookup_isSome_iff {α : Type} (g : List (Option String × List α))
    (k : Option String) : (groupLookup g k).isSome ↔ k ∈ g.map Prod.fst := by
  unfold groupLookup
  rw [Option.isSome_map', List.find?_isSome]
  constructor
  · rintro ⟨p, hp, hpk⟩
    exact (by simpa using hpk : p.1 = k) ▸ List.mem_map_of_mem Prod.fst hp
  · intro h
    rcases List.mem_map.mp h with ⟨p, hp, rfl⟩
    exact ⟨p, hp, by simp⟩

theorem mem_groupKeys {α : Type} (xs : List α) (key : α → Option String)
    (k : Option String) :
    k ∈ (group_by xs key).map Prod.fst ↔ xs.filter (fun x => key x = k) ≠ [] := by
  rw [← groupLookup_isSome_iff, groupLookup_group_by]
  by_cases h : xs.filter (fun x => key x = k) = [] <;> simp [h]

theorem groupLookup_mem_nonempty {α : Type} {xs : List α}
    {key : α → Option String} {k : Option String}
    (h : k ∈ (group_by xs key).map Prod.fst) :
    ∃ v vs, groupLookup (group_by xs key) k = some (v :: vs) := by
  rw [groupLookup_group_by]
  have hne := (mem_groupKeys xs key k).mp h
  cases hf : xs.filter (fun x => key x = k) with
  | nil => exact absurd hf hne
  | cons v vs => exact ⟨v, vs, by simp [hf]⟩

-- ### pyStrLt is a strict linear order on char lists

theorem pyStrLt_trans {a b c : List Char} (h1 : pyStrLt a b = true)
    (h2 : pyStrLt b c = true) : pyStrLt a c = true := by
  induction a generalizing b c with
  | nil =>
    cases b with
    | nil => simp [pyStrLt] at h1
    | cons y ys =>
      cases c with
      | nil => simp [pyStrLt] at h2
      | cons z zs => simp [pyStrLt]
  | cons x xs ih =>
    cases b with
    | nil => simp [pyStrLt] at h1
    | cons y ys =>
      cases c with
      | nil => simp [pyStrLt] at h2
      | cons z zs =>
        by_cases hxy : x = y
        · subst hxy
          rw [pyStrLt, if_pos rfl] at h1
          by_cases hyz : x = z
          · subst hyz
            rw [pyStrLt, if_pos rfl] at h2
            rw [pyStrLt, if_pos rfl]
            exact ih h1 h2
          · rw [pyStrLt, if_neg hyz] at h2
            rw [pyStrLt, if_neg hyz]
            exact h2
        · rw [pyStrLt, if_neg hxy] at h1
          have hlt1 : x < y := of_decide_eq_true h1
          by_cases hyz : y = z
          · subst hyz
            rw [pyStrLt, if_neg hxy]
            exact h1
          · rw [pyStrLt, if_neg hyz] at h2
            have hlt2 : y < z := of_decide_eq_true h2
            have hxz : x < z := lt_trans hlt1 hlt2
            rw [pyStrLt, if_neg (ne_of_lt hxz)]
            exact decide_eq_true hxz

theorem pyStrLt_total {a b : List Char} (h : a ≠ b) :
    pyStrLt a b = true ∨ pyStrLt b a = true := by
  induction a generalizing b with
  | nil =>
    cases b with
    | nil => exact absurd rfl h
    | cons y ys => left; simp [pyStrLt]
  | cons x xs ih =>
    cases b with
    | nil => right; simp [pyStrLt]
    | cons y ys =>
      by_cases hxy : x = y
      · subst hxy
        have hxs : xs ≠ ys := fun hh => h (by rw [hh])
        rcases ih hxs with h1 | h1
        · left
          rw [pyStrLt, if_pos rfl]
          exact h1
        · right
          rw [pyStrLt, if_pos rfl]
          exact h1
      · rcases lt_or_gt_of_ne hxy with hlt | hlt
        · left
          rw [pyStrLt, if_neg hxy]
          exact decide_eq_true hlt
        · right
          rw [pyStrLt, if_neg (fun hh => hxy hh.symm)]
          exact decide_eq_true hlt

-- ### insertF / pySorted lemmas

theorem insertF_ok_perm {a : Option String} {l l' : List (Option String)}
    (h : insertF a l = .ok l') : l'.Perm (a :: l) := by
  induction l generalizing l' with
  | nil =>
    injection h with h'
    subst h'
    exact List.Perm.refl _
  | cons b bs ih =>
    rw [insertF] at h
    cases hlt : pyLt a b with
    | error e => rw [hlt] at h; cases h
    | ok t =>
      rw [hlt] at h
      cases t with
      | true =>
        injection h with h'
        subst h'
        exact List.Perm.refl _
      | false =>
        cases hi : insertF a bs with
        | error e => rw [hi] at h; cases h
        | ok m =>
          rw [hi] at h
          injection h with h'
          subst h'
          exact (List.Perm.cons b (ih hi)).trans (List.Perm.swap a b bs)

theorem pySorted_ok_perm {l l' : List (Option String)}
    (h : pySorted l = .ok l') : l'.Perm l := by
  induction l generalizing l' with
  | nil =>
    injection h with h'
    subst h'
    exact List.Perm.refl _
  | cons x xs ih =>
    rw [pySorted] at h
    cases hs : pySorted xs with
    | error e => rw [hs] at h; cases h
    | ok m =>
      rw [hs] at h
      exact (insertF_ok_perm h).trans (List.Perm.cons x (ih hs))

theorem insertF_pairwise {a : Option String} {l l' : List (Option String)}
    (h : insertF a l = .ok l') (hp : l.Pairwise keyLt)
    (hd : ∀ b ∈ l, a ≠ b) : l'.Pairwise keyLt := by
  induction l generalizing l' with
  | nil =>
    injection h with h'
    subst h'
    simp
  | cons b bs ih =>
    rw [insertF] at h
    cases hlt : pyLt a b with
    | error e => rw [hlt] at h; cases h
    | ok t =>
      rw [hlt] at h
      have hab : ∃ x y, a = some x ∧ b = some y ∧ pyLt a b = .ok (pyStrLt x.data y.data) := by
        cases a with
        | none => simp [pyLt] at hlt
        | some x =>
          cases b with
          | none => simp [pyLt] at hlt
          | some y => exact ⟨x, y, rfl, rfl, rfl⟩
      rcases hab with ⟨x, y, rfl, rfl, heq⟩
      rw [heq] at hlt
      injection hlt with hlt'
      cases t with
      | true =>
        injection h with h'
        subst h'
        have hxy : pyStrLt x.data y.data = true := hlt'
        refine List.Pairwise.cons ?_ hp
        intro c hc
        rcases List.mem_cons.mp hc with rfl | hc'
        · exact ⟨x, y, rfl, rfl, hxy⟩
        · rcases (List.pairwise_cons.mp hp).1 c hc' with ⟨y', z, hy', hz, hyz⟩
          injection hy' with hy''
          subst hy''
          exact ⟨x, z, rfl, hz, pyStrLt_trans hxy hyz⟩
      | false =>
        cases hi : insertF (some x) bs with
        | error e => rw [hi] at h; cases h
        | ok m =>
          rw [hi] at h
          injection h with h'
          subst h'
          have hne : some x ≠ some y := hd _ (by simp)
          have hxy : x ≠ y := fun hh => hne (by rw [hh])
          have hyx : pyStrLt y.data x.data = true := by
            rcases pyStrLt_total (fun hh : x.data = y.data =>
              hxy (String.ext hh)) with h1 | h1
            · rw [h1] at hlt'; cases hlt'
            · exact h1
          have hm : m.Pairwise keyLt :=
            ih hi (List.pairwise_cons.mp hp).2 (fun c hc => hd c (by simp [hc]))
          refine List.Pairwise.cons ?_ hm
          intro c hc
          have hc' : c = some x ∨ c ∈ bs := by
            have := (insertF_ok_perm hi).mem_iff.mp hc
            simpa using this
          rcases hc' with rfl | hc''
          · exact ⟨y, x, rfl, rfl, hyx⟩
          · exact (List.pairwise_cons.mp hp).1 c hc''

theorem pySorted_pairwise {l l' : List (Option String)}
    (h : pySorted l = .ok l') (hnd : l.Nodup) : l'.Pairwise keyLt := by
  induction l generalizing l' with
  | nil =>
    injection h with h'
    subst h'
    simp
  | cons x xs ih =>
    rw [pySorted] at h
    cases hs : pySorted xs with
    | error e => rw [hs] at h; cases h
    | ok m =>
      rw [hs] at h
      have hmp : m.Pairwise keyLt := ih hs (List.nodup_cons.mp hnd).2
      refine insertF_pairwise h hmp ?_
      intro b hb
      have hbxs : b ∈ xs := (pySorted_ok_perm hs).mem_iff.mp hb
      exact fun hh => (List.nodup_cons.mp hnd).1 (hh ▸ hbxs)

-- ### pick_firsts / dedupe_picks lemmas

theorem forall2_exists_left {γ δ : Type} {R : γ → δ → Prop} {as : List γ}
    {bs : List δ} (h : List.Forall₂ R as bs) : ∀ b ∈ bs, ∃ a ∈ as, R a b := by
  induction h with
  | nil => intro b hb; cases hb
  | cons hR _ ih =>
    intro b hb
    rcases List.mem_cons.mp hb with rfl | hb'
    · exact ⟨_, by simp, hR⟩
    · rcases ih b hb' with ⟨a, ha, haR⟩
      exact ⟨a, by simp [ha], haR⟩

theorem pick_firsts_ok_spec {α : Type} {groups : List (Option String × List α)}
    {ks : List (Option String)} {ret ys : List α}
    (h : pick_firsts groups ks ret = .ok ys) :
    ∃ vs, ys = ret ++ vs ∧
      List.Forall₂ (fun k v => ∃ tl, groupLookup groups k = some (v :: tl)) ks vs := by
  induction ks generalizing ret with
  | nil =>
    injection h with h'
    exact ⟨[], by simp [h'.symm], List.Forall₂.nil⟩
  | cons k ks ih =>
    rw [pick_firsts] at h
    cases hl : groupLookup groups k with
    | none => rw [hl] at h; cases h
    | some l =>
      cases l with
      | nil => rw [hl] at h; cases h
      | cons v tl =>
        rw [hl] at h
        rcases ih h with ⟨vs, hys, hf2⟩
        exact ⟨v :: vs, by simp [hys], List.Forall₂.cons ⟨tl, hl⟩ hf2⟩

theorem forall2_lookup_map_key {α : Type} {xs : List α} {key : α → Option String}
    {ks : List (Option String)} {vs : List α}
    (h : List.Forall₂
      (fun k v => ∃ tl, groupLookup (group_by xs key) k = some (v :: tl)) ks vs) :
    vs.map key = ks := by
  induction h with
  | nil => simp
  | @cons k v ks' vs' hR hf2 ih =>
    rcases hR with ⟨tl, hl⟩
    rw [groupLookup_group_by] at hl
    by_cases hf : xs.filter (fun x => key x = k) = []
    · rw [if_pos hf] at hl
      cases hl
    · rw [if_neg hf] at hl
      injection hl with hl'
      have hv : v ∈ xs.filter (fun x => key x = k) := by
        rw [hl']
        simp
      have hk : key v = k := of_decide_eq_true (List.mem_filter.mp hv).2
      simp [ih, hk]

-- ### C2: uniq_by semantics

/-- C2: for every list of items and every key function, a successful
`uniq_by` returns exactly one representative per distinct key value, that
representative being the first occurrence of that key in iteration order,
and the output list is sorted strictly ascending by key value (not by
first-occurrence order). -/
theorem uniq_by_spec {α : Type} (xs : List α) (key : α → Option String)
    (ys : List α) (h : uniq_by xs key = .ok ys) :
    (ys.map key).Nodup ∧
    (∀ k, k ∈ ys.map key ↔ k ∈ xs.map key) ∧
    (∀ y ∈ ys, xs.find? (fun x => key x = key y) = some y) ∧
    (ys.map key).Pairwise keyLt := by
  unfold uniq_by at h
  dsimp only [] at h
  cases hs : pySorted ((group_by xs key).map Prod.fst) with
  | error e => rw [hs] at h; cases h
  | ok ks =>
    rw [hs] at h
    rcases pick_firsts_ok_spec h with ⟨vs, hys, hf2⟩
    rw [List.nil_append] at hys
    subst hys
    have hmap : ys.map key = ks := forall2_lookup_map_key hf2
    have hperm : ks.Perm ((group_by xs key).map Prod.fst) := pySorted_ok_perm hs
    have hkeysnodup := groupKeys_nodup xs key
    refine ⟨?_, ?_, ?_, ?_⟩
    · rw [hmap]
      exact hperm.symm.nodup hkeysnodup
    · intro k
      rw [hmap, hperm.mem_iff, mem_groupKeys]
      constructor
      · intro hne
        cases hfl : xs.filter (fun x => key x = k) with
        | nil => exact absurd hfl hne
        | cons a tl =>
          have ha : a ∈ xs.filter (fun x => key x = k) := by
            rw [hfl]; simp
          exact List.mem_map.mpr ⟨a, (List.mem_filter.mp ha).1,
            of_decide_eq_true (List.mem_filter.mp ha).2⟩
      · intro hk hfl
        rcases List.mem_map.mp hk with ⟨x, hx, rfl⟩
        have hmem : x ∈ xs.filter (fun x' => key x' = key x) :=
          List.mem_filter.mpr ⟨hx, by simp⟩
        rw [hfl] at hmem
        cases hmem
    · intro y hy
      rcases forall2_exists_left hf2 y hy with ⟨k, hkks, ⟨tl, hl⟩⟩
      rw [groupLookup_group_by] at hl
      by_cases hf : xs.filter (fun x => key x = k) = []
      · rw [if_pos hf] at hl
        cases hl
      · rw [if_neg hf] at hl
        injection hl with hl'
        have hyf : y ∈ xs.filter (fun x => key x = k) := by
          rw [hl']; simp
        have hky : key y = k := of_decide_eq_true (List.mem_filter.mp hyf).2
        have hh : (xs.filter (fun x => key x = k)).head? = some y := by
          rw [hl']; rfl
        rw [List.filter_head?] at hh
        rw [hky]
        exact hh
    · rw [hmap]
      exact pySorted_pairwise hs hkeysnodup

theorem uniq_by_spec_witness :
    uniq_by [wRuleB, wRuleA, wRuleB2] RuleEntry.name = .ok [wRuleA, wRuleB] ∧
    ([wRuleA, wRuleB].map RuleEntry.name).Nodup :=
  ⟨rfl,
    (uniq_by_spec [wRuleB, wRuleA, wRuleB2] RuleEntry.name [wRuleA, wRuleB] rfl).1⟩

-- ### C5: success and failure of the key sort

theorem insertF_allSome_ok (a : Option String) (l : List (Option String))
    (ha : a.isSome) (hl : ∀ b ∈ l, b.isSome) : ∃ l', insertF a l = .ok l' := by
  induction l with
  | nil => exact ⟨[a], rfl⟩
  | cons b bs ih =>
    obtain ⟨x, hx⟩ := Option.isSome_iff_exists.mp ha
    obtain ⟨y, hy⟩ := Option.isSome_iff_exists.mp (hl b (by simp))
    subst hx
    subst hy
    cases hlt : pyStrLt x.data y.data
    · obtain ⟨m, hm⟩ := ih (fun c hc => hl c (by simp [hc]))
      exact ⟨some y :: m, by rw [insertF]; simp [pyLt, hlt, hm]⟩
    · exact ⟨some x :: some y :: bs, by rw [insertF]; simp [pyLt, hlt]⟩

theorem pySorted_allSome_ok (l : List (Option String))
    (hl : ∀ b ∈ l, b.isSome) : ∃ l', pySorted l = .ok l' := by
  induction l with
  | nil => exact ⟨[], rfl⟩
  | cons x xs ih =>
    obtain ⟨m, hm⟩ := ih (fun c hc => hl c (by simp [hc]))
    have hms : ∀ b ∈ m, b.isSome := fun b hb =>
      hl b (by simp [(pySorted_ok_perm hm).mem_iff.mp hb])
    obtain ⟨l', hl'⟩ := insertF_allSome_ok x m (hl x (by simp)) hms
    exact ⟨l', by rw [pySorted, hm]; exact hl'⟩

theorem pick_firsts_ok_of_found {α : Type}
    {groups : List (Option String × List α)} {ks : List (Option String)}
    (h : ∀ k ∈ ks, ∃ v vs, groupLookup groups k = some (v :: vs)) :
    ∀ ret, ∃ ys, pick_firsts groups ks ret = .ok ys := by
  induction ks with
  | nil => exact fun ret => ⟨ret, rfl⟩
  | cons k ks ih =>
    intro ret
    obtain ⟨v, vs, hl⟩ := h k (by simp)
    obtain ⟨ys, hys⟩ := ih (fun k' hk' => h k' (by simp [hk'])) (ret ++ [v])
    exact ⟨ys, by rw [pick_firsts, hl]; exact hys⟩

theorem dedupe_picks_ok_of_found {α : Type}
    {groups : List (Option String × List α)} {ks : List (Option String)}
    (h : ∀ k ∈ ks, ∃ v vs, groupLookup groups k = some (v :: vs)) :
    ∀ ret, ∃ ys, dedupe_picks groups ks ret = .ok ys := by
  induction ks with
  | nil => exact fun ret => ⟨ret, rfl⟩
  | cons k ks ih =>
    intro ret
    obtain ⟨v, vs, hl⟩ := h k (by simp)
    obtain ⟨ys, hys⟩ :=
      ih (fun k' hk' => h k' (by simp [hk'])) (ret ++ [(v, (v :: vs).length)])
    exact ⟨ys, by rw [dedupe_picks, hl]; exact hys⟩

/-- C5 counterexample: sorting the group keys raises a `TypeError` when an
absent key is compared with a string key, so `uniq_by` fails on a
two-element list whose first element has no name — the code does not treat
absent keys as sorting first. -/
theorem uniq_by_mixed_keys_fails :
    uniq_by [(⟨none, "t"⟩ : RuleEntry), ⟨some "a", "u"⟩] RuleEntry.name =
      .error () := rfl

/-- C5 (amended): `group_by` itself never fails, and `uniq_by` and
`dedupe_by` never fail when every item's key is present (a string); key
comparison is then the total lexicographic order by code point.  (With an
absent key alongside a second distinct key the sort raises instead.) -/
theorem uniq_dedupe_ok_of_string_keys {α : Type} (xs : List α)
    (key : α → Option String) (h : ∀ x ∈ xs, (key x).isSome) :
    exIsOk (uniq_by xs key) = true ∧ exIsOk (dedupe_by xs key) = true := by
  have hkeys : ∀ k ∈ (group_by xs key).map Prod.fst, k.isSome := by
    intro k hk
    have hne := (mem_groupKeys xs key k).mp hk
    cases hfl : xs.filter (fun x => key x = k) with
    | nil => exact absurd hfl hne
    | cons a tl =>
      have ha : a ∈ xs.filter (fun x => key x = k) := by
        rw [hfl]; simp
      have hka : key a = k := of_decide_eq_true (List.mem_filter.mp ha).2
      exact hka ▸ h a (List.mem_filter.mp ha).1
  obtain ⟨ks, hks⟩ := pySorted_allSome_ok _ hkeys
  have hfound : ∀ k ∈ ks, ∃ v vs, groupLookup (group_by xs key) k = some (v :: vs) :=
    fun k hk => groupLookup_mem_nonempty ((pySorted_ok_perm hks).mem_iff.mp hk)
  obtain ⟨ys, hys⟩ := pick_firsts_ok_of_found hfound []
  obtain ⟨zs, hzs⟩ := dedupe_picks_ok_of_found hfound []
  constructor
  · unfold uniq_by
    dsimp only []
    rw [hks]
    dsimp only []
    rw [hys]
    rfl
  · unfold dedupe_by
    dsimp only []
    rw [hks]
    dsimp only []
    rw [hzs]
    rfl

theorem uniq_dedupe_ok_of_string_keys_witness :
    exIsOk (uniq_by [wRuleB, wRuleA, wRuleB2] RuleEntry.name) = true ∧
    exIsOk (dedupe_by [wRuleB, wRuleA, wRuleB2] RuleEntry.name) = true :=
  uniq_dedupe_ok_of_string_keys [wRuleB, wRuleA, wRuleB2] RuleEntry.name
    (by decide)

-- ### C3: player classification and numbering

theorem playerBucket_eq_filter (data : Roster) :
    playerBucket data =
      (get_selections data).filter (fun s => primary_category s = some "Player") := by
  unfold playerBucket
  rw [groupLookup_group_by]
  by_cases h :
      (get_selections data).filter (fun s => primary_category s = some "Player") = [] <;>
    simp [h]

theorem parse_number {data : Selection} {idx : Nat} {p : Player}
    (h : Player.parse data idx = .ok p) : p.number = idx + 1 :=
  (parse_ok_spec data idx p h).2.1

theorem get_players_aux_spec (l : List Selection) (k : Nat) (ps : List Player)
    (h : get_players_aux k l = .ok ps) :
    ps.length = l.length ∧
    (∀ i (hi : i < ps.length) (hj : i < l.length),
        Player.parse (l.get ⟨i, hj⟩) (k + i) = .ok (ps.get ⟨i, hi⟩)) ∧
    ps.map Player.number = List.range' (k + 1) l.length := by
  induction l generalizing k ps with
  | nil =>
    injection h with h'
    subst h'
    refine ⟨rfl, ?_, by simp⟩
    intro i hi hj
    cases hj
  | cons s rest ih =>
    rw [get_players_aux] at h
    cases hp : Player.parse s k with
    | error e => rw [hp] at h; cases h
    | ok p =>
      rw [hp] at h
      cases hr : get_players_aux (k + 1) rest with
      | error e => rw [hr] at h; cases h
      | ok ps' =>
        rw [hr] at h
        injection h with h'
        subst h'
        obtain ⟨hlen, hidx, hnum⟩ := ih (k + 1) ps' hr
        refine ⟨by simp [hlen], ?_, ?_⟩
        · intro i hi hj
          cases i with
          | zero => simpa using hp
          | succ n =>
            have hh := hidx n (by simpa using hi) (by simpa using hj)
            have harith : k + 1 + n = k + (n + 1) := by omega
            rw [harith] at hh
            simpa using hh
        · rw [List.map_cons, hnum, parse_number hp, List.length_cons,
            List.range'_succ]

/-- C3: for every roster, every selection whose primary category is
`"Player"` appears in the player list exactly once, in original appearance
order across the flattened forces, and the players are numbered `1..N` in
that same order. -/
theorem get_players_spec (data : Roster) (ps : List Player)
    (h : get_players data = .ok ps) :
    ps.length = ((get_selections data).filter
      (fun s => primary_category s = some "Player")).length ∧
    (∀ i (hi : i < ps.length)
        (hj : i < ((get_selections data).filter
          (fun s => primary_category s = some "Player")).length),
        Player.parse (((get_selections data).filter
          (fun s => primary_category s = some "Player")).get ⟨i, hj⟩) i =
          .ok (ps.get ⟨i, hi⟩)) ∧
    ps.map Player.number = List.range' 1 ps.length := by
  unfold get_players at h
  rw [playerBucket_eq_filter] at h
  obtain ⟨hlen, hidx, hnum⟩ := get_players_aux_spec _ 0 ps h
  refine ⟨hlen, ?_, ?_⟩
  · intro i hi hj
    simpa using hidx i hi hj
  · rw [hnum, hlen]

theorem get_players_spec_witness :
    get_players wRoster = .ok [wGrakPlayer] ∧
    [wGrakPlayer].map Player.number = List.range' 1 ([wGrakPlayer].length) :=
  ⟨rfl, (get_players_spec wRoster [wGrakPlayer] rfl).2.2⟩

-- ### C4: zero-profile players

/-- C4 counterexample: a player selection with zero profiles parses without
failing, but the characteristics mapping it produces is not empty — the
overlay always inserts the `Player` entry. -/
theorem zero_profiles_characteristics_not_empty :
    (Player.parse wNoProfileSel 0).map Player.characteristics =
      .ok [("Player", "X")] ∧ ([("Player", "X")] : PyDict String) ≠ [] :=
  ⟨rfl, by simp⟩

/-- C4 (amended): a player selection with zero profiles that parses
successfully gets an empty profile-derived characteristics base, so every
entry of its final characteristics mapping is one of the overlay keys
`Cost`, `SPP`, `Player`, with `Player` mapped to the selection's name. -/
theorem zero_profiles_overlay_only (data : Selection) (idx : Nat) (p : Player)
    (hp : data.profiles = []) (h : Player.parse data idx = .ok p) :
    (∀ kv ∈ p.characteristics, kv.1 = "Cost" ∨ kv.1 = "SPP" ∨ kv.1 = "Player") ∧
    dictGet p.characteristics "Player" = some data.name := by
  have hchars := (parse_ok_spec data idx p h).2.2.2.1
  rw [hchars]
  unfold playerCharsSpec
  dsimp only []
  rw [hp]
  dsimp only [List.map_nil, List.head?_nil]
  cases htv : dictGet (merge_costs (playerCostDicts data)) "TV" with
  | none =>
    cases hspp : dictGet (merge_costs (playerCostDicts data)) "SPP" with
    | none =>
      constructor
      · intro kv hkv
        simp [dictInsert] at hkv
        simp [hkv]
      · simp [dictInsert, dictGet_cons]
    | some v =>
      constructor
      · intro kv hkv
        simp [dictInsert] at hkv
        rcases hkv with rfl | rfl <;> simp
      · simp [dictInsert, dictGet_cons]
  | some tv =>
    cases hspp : dictGet (merge_costs (playerCostDicts data)) "SPP" with
    | none =>
      constructor
      · intro kv hkv
        simp [dictInsert] at hkv
        rcases hkv with rfl | rfl <;> simp
      · simp [dictInsert, dictGet_cons]
    | some v =>
      constructor
      · intro kv hkv
        simp [dictInsert] at hkv
        rcases hkv with rfl | rfl | rfl <;> simp
      · simp [dictInsert, dictGet_cons]

theorem zero_profiles_overlay_only_witness :
    wNoProfileSel.profiles = [] ∧
    dictGet wNoProfilePlayer.characteristics "Player" = some "X" :=
  ⟨rfl,
    ((zero_profiles_overlay_only wNoProfileSel 0 wNoProfilePlayer rfl rfl).2).trans
      (by rfl)⟩

-- ### C6: thousands formatting

/-- C6: the thousands-separator formatting used for the `Cost`
characteristic groups digits by 3 from the right — 0, 999, 1000 and 1234567
format as `"0"`, `"999"`, `"1,000"` and `"1,234,567"` — and a parsed player
whose merged costs contain `TV` gets exactly that formatting of the TV value
as its `Cost` characteristic. -/
theorem cost_thousands_formatting :
    pyFormatComma 0 = "0" ∧ pyFormatComma 999 = "999" ∧
    pyFormatComma 1000 = "1,000" ∧ pyFormatComma 1234567 = "1,234,567" ∧
    ∀ (data : Selection) (idx : Nat) (p : Player) (tv : Int),
      Player.parse data idx = .ok p → dictGet p.costs "TV" = some tv →
      dictGet p.characteristics "Cost" = some (pyFormatComma tv) := by
  refine ⟨rfl, rfl, rfl, rfl, ?_⟩
  intro data idx p tv h htv
  obtain ⟨hname, hnum, hcosts, hchars, hrules⟩ := parse_ok_spec data idx p h
  rw [hcosts] at htv
  rw [hchars]
  unfold playerCharsSpec
  dsimp only []
  rw [htv]
  cases hspp : dictGet (merge_costs (playerCostDicts data)) "SPP" with
  | none =>
    rw [dictGet_insert, if_neg (by decide), dictGet_insert, if_pos rfl]
  | some v =>
    rw [dictGet_insert, if_neg (by decide), dictGet_insert, if_neg (by decide),
      dictGet_insert, if_pos rfl]

theorem cost_thousands_formatting_witness :
    dictGet wGrakPlayer.costs "TV" = some 95 ∧
    dictGet wGrakPlayer.characteristics "Cost" = some (pyFormatComma 95) :=
  ⟨rfl, cost_thousands_formatting.2.2.2.2 wGrakSel 0 wGrakPlayer 95 rfl rfl⟩

-- ### C7: Team League (last one wins)

theorem tmLoop_league (l : List Selection) (acc res : TMAcc)
    (h : tmLoop l acc = .ok res) :
    res.1 = ((l.filter (fun o => o.name = "Team League")).getLast?).elim acc.1
      (fun o => o.selections.head?.map Selection.name) := by
  induction l generalizing acc with
  | nil =>
    injection h with h'
    subst h'
    simp
  | cons o os ih =>
    rw [tmLoop] at h
    cases hstep : tm_step acc o with
    | error e => rw [hstep] at h; cases h
    | ok acc' =>
      rw [hstep] at h
      have hres := ih acc' h
      by_cases hTL : o.name = "Team League"
      · unfold tm_step at hstep
        rw [if_pos hTL] at hstep
        cases hsel : o.selections with
        | nil => rw [hsel] at hstep; cases hstep
        | cons s ss =>
          rw [hsel] at hstep
          injection hstep with hstep'
          have hacc' : acc'.1 = some s.name := by rw [← hstep']
          have hfc : (o :: os).filter (fun o' => o'.name = "Team League") =
              o :: os.filter (fun o' => o'.name = "Team League") := by
            rw [List.filter_cons]
            simp [hTL]
          rw [hfc]
          cases hof : os.filter (fun o' => o'.name = "Team League") with
          | nil =>
            rw [hof] at hres
            simp only [List.getLast?_nil, Option.elim] at hres
            rw [hres, hacc']
            simp [hsel]
          | cons q qs =>
            rw [hof] at hres
            obtain ⟨lastEl, hlast⟩ : ∃ le, (q :: qs).getLast? = some le :=
              ⟨_, List.getLast?_eq_getLast_of_ne_nil (List.cons_ne_nil q qs)⟩
            rw [List.getLast?_cons_cons, hlast]
            rw [hlast] at hres
            simpa using hres
      · have hacc' : acc'.1 = acc.1 := by
          unfold tm_step at hstep
          rw [if_neg hTL] at hstep
          by_cases hSR : o.name = "Special Rules"
          · rw [if_pos hSR] at hstep
            cases hsr : sortRulesByName ((o.selections.map Selection.rules).flatten) with
            | error e => rw [hsr] at hstep; cases hstep
            | ok srs =>
              rw [hsr] at hstep
              injection hstep with h'
              rw [← h']
          · rw [if_neg hSR] at hstep
            injection hstep with h'
            rw [← h']
        have hfc : (o :: os).filter (fun o' => o'.name = "Team League") =
            os.filter (fun o' => o'.name = "Team League") := by
          rw [List.filter_cons]
          simp [hTL]
        rw [hfc, hres, hacc']

/-- C7: for every roster whose Team Management bucket contains at least one
selection named exactly `"Team League"`, the returned league value is the
name of the first sub-selection of the last such selection in iteration
order (last one wins when more than one exists). -/
theorem team_league_last_wins (data : Roster) (res : TMAcc)
    (h : team_management_options data = .ok res)
    (hne : teamLeagueSels data ≠ []) :
    res.1 = ((teamLeagueSels data).getLast hne).selections.head?.map
      Selection.name := by
  unfold team_management_options at h
  cases hl : tmLoop (teamManagementBucket data) (none, none, []) with
  | error e => rw [hl] at h; cases h
  | ok acc =>
    rw [hl] at h
    injection h with h'
    subst h'
    have hT := tmLoop_league _ _ _ hl
    have hfilter : (teamManagementBucket data).filter
        (fun o => o.name = "Team League") = teamLeagueSels data := rfl
    rw [hfilter, List.getLast?_eq_getLast_of_ne_nil hne] at hT
    simpa using hT

theorem team_league_last_wins_witness :
    team_management_options wTMRoster =
      .ok (some "Underworld Challenge", none, []) ∧
    (some "Underworld Challenge", (none : Option (List RuleEntry)),
      ([] : List TeamOption)).1 = some "Underworld Challenge" :=
  ⟨rfl,
    (team_league_last_wins wTMRoster (some "Underworld Challenge", none, [])
      rfl (by decide)).trans (by rfl)⟩

-- ### C9: determinism of the pipeline

/-- C9: the pipeline is deterministic — the embedded transformation is a
pure function of the input document (all map iteration in the embedding is
insertion-ordered and every reordering is an explicit sort), so running it
twice on the same input yields identical output: the same player order,
rule order, profile order and formatted numbers. -/
theorem render_team_deterministic (d1 d2 : Roster) (h : d1 = d2)
    (css : Bool) : render_team_context d1 css = render_team_context d2 css := by
  rw [h]

theorem render_team_deterministic_witness :
    wRoster = wRoster ∧
    render_team_context wRoster true = render_team_context wRoster true :=
  ⟨rfl, render_team_deterministic wRoster wRoster rfl true⟩

-- ### C10: roster-level total cost

/-- C10: when the pipeline succeeds the roster-level total cost handed to
the template is the first entry of the roster's costs list formatted with
thousands separators, regardless of that entry's name, and a roster with an
empty costs list makes the run fail. -/
theorem roster_tv_first_cost (data : Roster) (css : Bool) :
    (∀ ctx, render_team_context data css = .ok ctx →
      ∃ c rest, data.costs = c :: rest ∧ ctx.tv = pyFormatComma c.value) ∧
    (data.costs = [] → render_team_context data css = .error ()) := by
  constructor
  · intro ctx h
    unfold render_team_context at h
    cases hr : get_rules data with
    | error e => rw [hr] at h; cases h
    | ok rules =>
      rw [hr] at h
      cases hp : get_players data with
      | error e => rw [hp] at h; cases h
      | ok players =>
        rw [hp] at h
        cases hpr : get_profiles data with
        | error e => rw [hpr] at h; cases h
        | ok profiles =>
          rw [hpr] at h
          cases hc : data.costs with
          | nil => rw [hc] at h; cases h
          | cons c rest =>
            rw [hc] at h
            cases hf : data.forces with
            | nil => rw [hf] at h; cases h
            | cons f fs =>
              rw [hf] at h
              cases htm : team_management_options data with
              | error e => rw [htm] at h; cases h
              | ok acc =>
                obtain ⟨lg, sr, opts⟩ := acc
                rw [htm] at h
                injection h with h'
                subst h'
                exact ⟨c, rest, rfl, rfl⟩
  · intro hc
    unfold render_team_context
    cases hr : get_rules data with
    | error e => rfl
    | ok rules =>
      cases hp : get_players data with
      | error e => rfl
      | ok players =>
        cases hpr : get_profiles data with
        | error e => rfl
        | ok profiles =>
          rw [hc]

theorem roster_tv_first_cost_witness :
    wEmptyCostsRoster.costs = [] ∧
    render_team_context wEmptyCostsRoster true = .error () :=
  ⟨rfl, (roster_tv_first_cost wEmptyCostsRoster true).2 rfl⟩
